import Mathlib

/-!
Verification of the keyword-search tool in scripts/scil_search_keywords.py.

The program is shallowly embedded over List Char / String.  Text is modelled
with the ASCII case folding (Char.toLower), which coincides with the Python
str.lower and re.IGNORECASE behaviour on ASCII text; all concrete inputs used
below are ASCII.  Standard output is modelled as a single String, where each
print call contributes its arguments joined by single spaces followed by a
newline character.
-/

/-- ANSI escape RED, line 18 of the source. -/
def RED : String := "\x1b[31m"

/-- ANSI escape BOLD, line 19 of the source. -/
def BOLD : String := "\x1b[1m"

/-- ANSI escape END_COLOR, line 20 of the source. -/
def END_COLOR : String := "\x1b[0m"

/-- Report delimiter SPACING, line 21 of the source. -/
def SPACING : String := "=================="

/-- Placeholder used when the extracted text is empty, line 64 of the source. -/
def NO_DOC : String := "No docstring available!"

/-- One discovered script: its filename and the text extracted for searching
(the module docstring in fast mode, the captured help output in slow mode). -/
structure Script where
  name : String
  text : String
deriving DecidableEq

/-- Code-point lexicographic comparison of character lists.  This is how
Python compares strings, hence how sorted() orders the glob results. -/
def charListLe : List Char → List Char → Bool
  | [], _ => true
  | _ :: _, [] => false
  | a :: as, b :: bs =>
    if a.toNat < b.toNat then true
    else if b.toNat < a.toNat then false
    else charListLe as bs

/-- Python string comparison, used by sorted() in line 48 of the source. -/
def pyStrLe (a b : String) : Bool := charListLe a.data b.data

/-- Contiguous substring test on character lists, the Python in operator on
strings: the needle is a prefix of some suffix of the haystack. -/
def subList (needle : List Char) : List Char → Bool
  | [] => needle.isEmpty
  | c :: t => needle.isPrefixOf (c :: t) || subList needle t

/-- Case-insensitive substring test: embeds the expression
key.lower() in text.lower() from line 99 of the source. -/
def ciSubstring (key text : String) : Bool :=
  subList (key.data.map Char.toLower) (text.data.map Char.toLower)

/-- Inner loop of _test_matching_keywords (lines 96-103): one keyword is
matched when it occurs case-insensitively in at least one of the texts. -/
def keywordFound (key : String) (texts : List String) : Bool :=
  texts.any (fun text => ciSubstring key text)

/-- Embeds _test_matching_keywords (lines 80-105): build the per-keyword
match list, then take the conjunction, as np.all does. -/
def test_matching_keywords (keywords texts : List String) : Bool :=
  (keywords.map (fun key => keywordFound key texts)).all (fun b => b)

/-- Case-insensitive match of the whole keyword at the head of s: the
re.IGNORECASE literal match performed by the compiled patterns of line 45. -/
def ciHead (kw s : List Char) : Bool :=
  decide ((s.take kw.length).map Char.toLower = kw.map Char.toLower)

/-- Marker inserted before each regex match: RED + BOLD, line 66. -/
def openMarker : List Char := (RED ++ BOLD).data

/-- Marker inserted after each regex match: END_COLOR, line 66. -/
def closeMarker : List Char := END_COLOR.data

/-- Fuel-indexed scan implementing regex.sub of lines 69-70: replace each
leftmost non-overlapping case-insensitive occurrence of the keyword by
openMarker, the matched characters, closeMarker.  An empty keyword matches
with zero width at every position, as the empty Python pattern does.  The
fuel only drives the recursion; it is adequate whenever it bounds the
length of the scanned list. -/
def hlFuel (kw : List Char) : Nat → List Char → List Char
  | _, [] => if kw.isEmpty then openMarker ++ closeMarker else []
  | 0, s => s
  | fuel + 1, c :: rest =>
    match kw with
    | [] => openMarker ++ closeMarker ++ c :: hlFuel [] fuel rest
    | k :: kt =>
      if ciHead (k :: kt) (c :: rest) then
        openMarker ++ (c :: rest).take (kt.length + 1) ++ closeMarker
          ++ hlFuel (k :: kt) fuel ((c :: rest).drop (kt.length + 1))
      else c :: hlFuel (k :: kt) fuel rest

/-- regex.sub on character lists: run the scan with adequate fuel. -/
def hlSubCore (kw s : List Char) : List Char := hlFuel kw s.length s

/-- One substitution step filename = regex.sub(new_key, filename) of
lines 69-70, for a single keyword. -/
def hlOne (kw s : String) : String := String.mk (hlSubCore kw.data s.data)

/-- The for loop over kw_subs in lines 69-70: apply the substitution of each
keyword in order to the accumulated string. -/
def highlight (kws : List String) (s : String) : String :=
  kws.foldl (fun acc kw => hlOne kw acc) s

/-- The text body printed for an accepted script: the extracted text, with
the placeholder substituted first when it is empty (line 64), and the
keyword substitutions applied afterwards (line 70). -/
def printedBody (kws : List String) (scr : Script) : String :=
  highlight kws (if scr.text = "" then NO_DOC else scr.text)

/-- The three print calls of lines 72-74 for one accepted script. -/
def scriptReport (kws : List String) (scr : Script) : String :=
  SPACING ++ " " ++ highlight kws scr.name ++ " " ++ SPACING ++ "\n"
    ++ printedBody kws scr ++ "\n"
    ++ SPACING ++ " " ++ ("End of " ++ highlight kws scr.name) ++ " " ++ SPACING ++ "\n"

/-- The acceptance test of line 60, applied to the original filename and
extracted text of a script. -/
def matchPred (kws : List String) (scr : Script) : Bool :=
  test_matching_keywords kws [scr.name, scr.text]

/-- Loop body of main (lines 59-74): accepted scripts append their original
filename to matches and their report block to standard output. -/
def mainStep (kws : List String) (acc : List String × String) (scr : Script) :
    List String × String :=
  if matchPred kws scr then (acc.1 ++ [scr.name], acc.2 ++ scriptReport kws scr)
  else acc

/-- Ordering of scripts by filename, as sorted() produces in line 48. -/
def scriptLE (a b : Script) : Prop := pyStrLe a.name b.name = true

instance : DecidableRel scriptLE :=
  fun a b => inferInstanceAs (Decidable (pyStrLe a.name b.name = true))

/-- sorted(script_dir.glob(..)) of line 48: the discovered scripts in
ascending filename order. -/
def sortScripts (l : List Script) : List Script := List.insertionSort scriptLE l

/-- The main loop of lines 48-74: fold the loop body over the sorted
scripts, accumulating the matches list and standard output. -/
def runBody (kws : List String) (l : List Script) : List String × String :=
  (sortScripts l).foldl (mainStep kws) ([], "")

/-- The matches list accumulated by main. -/
def matchedNames (kws : List String) (l : List Script) : List String :=
  (runBody kws l).1

/-- Full standard output of main (lines 48-77): the loop output, followed by
the no-results line when the matches list stayed empty. -/
def run (kws : List String) (l : List Script) : String :=
  if (runBody kws l).1.isEmpty then (runBody kws l).2 ++ "No results found!\n"
  else (runBody kws l).2

/-- Concatenation of printed blocks. -/
def joinAll : List String → String
  | [] => ""
  | s :: rest => s ++ joinAll rest

/-- Python str.expandtabs with the default tab size 8, used by
inspect.cleandoc: each tab becomes spaces up to the next multiple of 8,
and the column counter resets after a newline or carriage return. -/
def expandtabsAux : List Char → Nat → List Char
  | [], _ => []
  | c :: rest, col =>
    if c = '\t' then
      List.replicate (8 - col % 8) ' ' ++ expandtabsAux rest (col + (8 - col % 8))
    else if c = '\n' || c = '\r' then c :: expandtabsAux rest 0
    else c :: expandtabsAux rest (col + 1)

/-- Python str.split with separator a newline: split into lines, keeping
empty pieces, never returning an empty list. -/
def splitNl : List Char → List (List Char)
  | [] => [[]]
  | c :: rest =>
    if c = '\n' then [] :: splitNl rest
    else
      match splitNl rest with
      | [] => [[c]]
      | l :: ls => (c :: l) :: ls

/-- Inverse of splitNl: join lines with newline characters between them. -/
def joinNl : List (List Char) → List Char
  | [] => []
  | [l] => l
  | l :: ls => l ++ '\n' :: joinNl ls

/-- The ASCII whitespace characters recognised by Python str.lstrip. -/
def isPySpace (c : Char) : Bool :=
  c = ' ' || c = '\t' || c = '\n' || c = '\r' || c = '\x0b' || c = '\x0c'

/-- Python str.lstrip with no argument: drop leading whitespace. -/
def lstrip (l : List Char) : List Char := l.dropWhile isPySpace

/-- Minimum indentation of the non-blank lines, none standing for the
sys.maxsize sentinel of inspect.cleandoc. -/
def marginOf (lines : List (List Char)) : Option Nat :=
  lines.foldl
    (fun m line =>
      if (lstrip line).isEmpty then m
      else
        match m with
        | none => some (line.length - (lstrip line).length)
        | some v => some (min v (line.length - (lstrip line).length)))
    none

/-- Remove the trailing run of empty lines, the first popping loop of
inspect.cleandoc. -/
def dropTrailingEmpties (l : List (List Char)) : List (List Char) :=
  (l.reverse.dropWhile List.isEmpty).reverse

/-- inspect.cleandoc from the Python standard library, which
ast.get_docstring applies to every docstring it returns: expand tabs,
compute the common margin of the lines after the first, strip the first
line, dedent the rest, then drop trailing and leading empty lines. -/
def cleandocCore (doc : List Char) : List Char :=
  let lines := splitNl (expandtabsAux doc 0)
  let dedented :=
    match lines with
    | [] => []
    | f :: rest =>
      lstrip f ::
        (match marginOf rest with
         | none => rest
         | some m => rest.map (fun line => line.drop m))
  joinNl ((dropTrailingEmpties dedented).dropWhile List.isEmpty)

/-- inspect.cleandoc on strings. -/
def cleandoc (doc : String) : String := String.mk (cleandocCore doc.data)

/-- Parse result of a script file, abstracted to the part the program
reads: the string constant heading the module body, when there is one. -/
structure PyModule where
  docstring : Option String
deriving DecidableEq

/-- ast.get_docstring with its default clean=True argument: the module
docstring passed through inspect.cleandoc, or None when absent. -/
def ast_get_docstring (m : PyModule) : Option String :=
  m.docstring.map cleandoc

/-- Embeds _get_docstring (lines 108-125): ast.get_docstring(module) or
the empty string. -/
def get_docstring (m : PyModule) : String :=
  (ast_get_docstring m).getD ""

/-- Docstrings on which inspect.cleandoc is the identity: no tab anywhere,
a nonempty first line starting with non-whitespace, a nonempty last line,
and no common indentation on the lines after the first. -/
def alreadyClean (d : String) : Bool :=
  !(d.data.any (fun c => c = '\t')) &&
    (match splitNl d.data with
     | [] => false
     | f :: rest =>
       (match f with
        | [] => false
        | c :: _ => !isPySpace c) &&
         (match (f :: rest).getLast? with
          | none => false
          | some last => !last.isEmpty) &&
         (match marginOf rest with
          | none => true
          | some m => decide (m = 0)))

/-- One script file as main sees it before extraction: its name, its parse
result, and the help text its subprocess would print in slow mode. -/
structure SourceFile where
  name : String
  module : PyModule
  helpText : String
deriving DecidableEq

/-- The extraction branch of lines 51-57: the captured help output under
--searchParser, the module docstring otherwise. -/
def extractText (searchParser : Bool) (f : SourceFile) : String :=
  if searchParser then f.helpText else get_docstring f.module

/-- The script record main works with once the text is extracted. -/
def toScript (searchParser : Bool) (f : SourceFile) : Script :=
  Script.mk f.name (extractText searchParser f)

/-- A whole run of main from the discovered files and the mode flag. -/
def scanRun (kws : List String) (searchParser : Bool)
    (files : List SourceFile) : String :=
  run kws (files.map (toScript searchParser))

/-- Ordering of named extraction outcomes by filename. -/
def pairLE {ε : Type} (a b : String × Except ε String) : Prop :=
  pyStrLe a.1 b.1 = true

instance {ε : Type} : DecidableRel (pairLE (ε := ε)) :=
  fun a b => inferInstanceAs (Decidable (pyStrLe a.1 b.1 = true))

/-- Main loop with explicit exception semantics: each script carries the
outcome of its text extraction, an extraction exception ends the whole
run at once since no handler encloses lines 51-74. -/
def runEAux {ε : Type} (kws : List String) :
    List (String × Except ε String) → List String → String →
      Except ε (List String × String)
  | [], ms, out => Except.ok (ms, out)
  | (nm, res) :: rest, ms, out =>
    match res with
    | Except.error e => Except.error e
    | Except.ok text =>
      if matchPred kws (Script.mk nm text) then
        runEAux kws rest (ms ++ [nm]) (out ++ scriptReport kws (Script.mk nm text))
      else runEAux kws rest ms out

/-- Full run of main with exception semantics: standard output on success,
the uncaught exception otherwise. -/
def runE {ε : Type} (kws : List String)
    (l : List (String × Except ε String)) : Except ε String :=
  match runEAux kws (List.insertionSort pairLE l) [] "" with
  | Except.error e => Except.error e
  | Except.ok (ms, out) =>
      Except.ok (if ms.isEmpty then out ++ "No results found!\n" else out)

/-- Whether an extraction outcome is an uncaught exception. -/
def isErr {ε α : Type} : Except ε α → Bool
  | Except.error _ => true
  | Except.ok _ => false

/-- Parsed command line of the program. -/
structure Args where
  keywords : List String
  searchParser : Bool
deriving DecidableEq

/-- Modelled from the argparse configuration of _build_arg_parser
(lines 24-34): the optional --searchParser flag is picked out of the
argument vector, every other argument is a positional keyword, and
nargs=+ makes argparse reject a command line with no keyword. -/
def parseArgs (argv : List String) : Option Args :=
  let pos := argv.filter (fun a => a ≠ "--search_parser")
  if pos.isEmpty then none
  else some (Args.mk pos (argv.any (fun a => a = "--search_parser")))

lemma sortScripts_perm (l : List Script) : (sortScripts l).Perm l :=
  List.perm_insertionSort scriptLE l

lemma runBody_foldl (kws : List String) :
    ∀ (l : List Script) (ms : List String) (out : String),
      l.foldl (mainStep kws) (ms, out)
        = (ms ++ (l.filter (matchPred kws)).map Script.name,
           out ++ joinAll ((l.filter (matchPred kws)).map (scriptReport kws))) := by
  intro l
  induction l with
  | nil => intro ms out; simp [joinAll]
  | cons a rest ih =>
    intro ms out
    by_cases h : matchPred kws a
    · rw [List.foldl_cons]
      simp only [mainStep, h, ite_true]
      rw [ih, List.filter_cons_of_pos h]
      simp [joinAll, List.append_assoc, String.append_assoc]
    · rw [List.foldl_cons]
      simp only [mainStep, h, ite_false]
      rw [ih, List.filter_cons_of_neg (by simpa using h)]
      simp

lemma runBody_eq (kws : List String) (l : List Script) :
    runBody kws l
      = (((sortScripts l).filter (matchPred kws)).map Script.name,
         joinAll (((sortScripts l).filter (matchPred kws)).map (scriptReport kws))) := by
  unfold runBody
  rw [runBody_foldl]
  simp

lemma matchedNames_eq (kws : List String) (l : List Script) :
    matchedNames kws l
      = ((sortScripts l).filter (matchPred kws)).map Script.name := by
  unfold matchedNames
  rw [runBody_eq]

lemma test_iff (kws : List String) (nm txt : String) :
    test_matching_keywords kws [nm, txt] = true ↔
      ∀ kw ∈ kws, ciSubstring kw nm = true ∨ ciSubstring kw txt = true := by
  unfold test_matching_keywords keywordFound
  simp [List.all_map, List.all_eq_true, Function.comp]

/-- C1: a script is included in the printed report exactly when every
keyword of the run is a case-insensitive substring of its filename or of
its extracted text: disjunction between the two fields, conjunction over
the keywords. -/
theorem C1_report_iff_keywords (kws : List String) (l : List Script)
    (scr : Script) (hmem : scr ∈ l) (hn : (l.map Script.name).Nodup) :
    scr.name ∈ matchedNames kws l ↔
      ∀ kw ∈ kws,
        ciSubstring kw scr.name = true ∨ ciSubstring kw scr.text = true := by
  rw [matchedNames_eq, ← test_iff kws scr.name scr.text]
  have hsortmem : scr ∈ sortScripts l := (sortScripts_perm l).mem_iff.mpr hmem
  have hsortnodup : ((sortScripts l).map Script.name).Nodup :=
    (((sortScripts_perm l).map Script.name).nodup_iff).mpr hn
  constructor
  · intro h
    obtain ⟨s, hs, hname⟩ := List.mem_map.mp h
    obtain ⟨hsmem, hp⟩ := List.mem_filter.mp hs
    have : s = scr :=
      List.inj_on_of_nodup_map hsortnodup hsmem hsortmem hname
    subst this
    exact hp
  · intro h
    exact List.mem_map.mpr
      ⟨scr, List.mem_filter.mpr ⟨hsortmem, h⟩, rfl⟩

theorem C1_report_iff_keywords_witness :
    "scil_aa.py" ∈ matchedNames ["aa"] [Script.mk "scil_aa.py" "x"] :=
  (C1_report_iff_keywords ["aa"] [Script.mk "scil_aa.py" "x"]
      (Script.mk "scil_aa.py" "x") (by decide) (by decide)).mpr (by decide)

/-- C10: the inclusion decision is computed by matchPred on the original,
un-highlighted filename and extracted text; the matches list is the filter
of the sorted scripts under that predicate, and the loop output is the
concatenation of the report blocks of exactly those scripts, so the
highlighting substitutions, applied only inside the blocks of accepted
scripts, can never change which scripts are reported or their order. -/
theorem C10_selection_on_original_text (kws : List String) (l : List Script) :
    matchedNames kws l
        = ((sortScripts l).filter (matchPred kws)).map Script.name
    ∧ (runBody kws l).2
        = joinAll (((sortScripts l).filter (matchPred kws)).map
            (scriptReport kws)) := by
  refine ⟨matchedNames_eq kws l, ?_⟩
  rw [runBody_eq]

/-- C5: when the matches list stays empty the whole output is the single
no-results line, and when at least one script matches the output is
exactly the concatenation of the report blocks, without that line. -/
theorem C5_no_results_line (kws : List String) (l : List Script) :
    run kws l
      = if (matchedNames kws l).isEmpty then "No results found!\n"
        else joinAll (((sortScripts l).filter (matchPred kws)).map
              (scriptReport kws)) := by
  unfold run
  rw [matchedNames_eq, runBody_eq]
  by_cases h : (sortScripts l).filter (matchPred kws) = []
  · simp [h, joinAll]
  · simp [h, joinAll, List.isEmpty_iff]

/-- C9: with an empty keyword list the matching test is vacuously true, so
every discovered script would be reported in sorted order; only the
argument parser, whose positional keyword argument requires at least one
value, rejects such a command line. -/
theorem C9_empty_keyword_list :
    (∀ texts : List String, test_matching_keywords [] texts = true)
    ∧ (∀ l : List Script, matchedNames [] l = (sortScripts l).map Script.name)
    ∧ parseArgs [] = none ∧ parseArgs ["--search_parser"] = none := by
  refine ⟨fun texts => rfl, fun l => ?_, rfl, by decide⟩
  rw [matchedNames_eq]
  congr 1
  exact List.filter_eq_self.mpr (fun a _ => rfl)

lemma charListLe_total : ∀ a b : List Char,
    charListLe a b = true ∨ charListLe b a = true := by
  intro a
  induction a with
  | nil => intro b; left; rfl
  | cons x xs ih =>
    intro b
    cases b with
    | nil => right; rfl
    | cons y ys =>
      by_cases h1 : x.toNat < y.toNat
      · left; simp [charListLe, h1]
      · by_cases h2 : y.toNat < x.toNat
        · right; simp [charListLe, h2]
        · rcases ih ys with h | h
          · left; simp [charListLe, h1, h2, h]
          · right; simp [charListLe, h1, h2, h]

lemma charListLe_trans : ∀ a b c : List Char,
    charListLe a b = true → charListLe b c = true → charListLe a c = true := by
  intro a
  induction a with
  | nil => intro b c _ _; rfl
  | cons x xs ih =>
    intro b c hab hbc
    cases b with
    | nil => simp [charListLe] at hab
    | cons y ys =>
      cases c with
      | nil => simp [charListLe] at hbc
      | cons z zs =>
        simp only [charListLe] at hab hbc ⊢
        split_ifs at hab hbc ⊢ with h1 h2 h3 h4 h5 h6 <;>
          first
          | rfl
          | (exact ih ys zs hab hbc)
          | (exfalso; omega)

lemma charListLe_antisymm : ∀ a b : List Char,
    charListLe a b = true → charListLe b a = true → a = b := by
  intro a
  induction a with
  | nil =>
    intro b _ hba
    cases b with
    | nil => rfl
    | cons y ys => simp [charListLe] at hba
  | cons x xs ih =>
    intro b hab hba
    cases b with
    | nil => simp [charListLe] at hab
    | cons y ys =>
      simp only [charListLe] at hab hba
      split_ifs at hab hba with h1 h2 h3 <;>
        first
        | (exfalso; omega)
        | (exact (Bool.false_ne_true hab).elim)
        | (exact (Bool.false_ne_true hba).elim)
        | (have hxy : x = y :=
             Char.ext (UInt32.ext (show x.toNat = y.toNat by omega))
           rw [hxy, ih ys hab hba])

instance : IsTotal Script scriptLE :=
  IsTotal.mk (fun a b => charListLe_total a.name.data b.name.data)

instance : IsTrans Script scriptLE :=
  IsTrans.mk (fun _ _ _ h1 h2 => charListLe_trans _ _ _ h1 h2)

lemma sortScripts_sorted (l : List Script) :
    (sortScripts l).Pairwise scriptLE :=
  List.sorted_insertionSort scriptLE l

/-- Strict filename order, total on lists with pairwise distinct names. -/
def scriptNameNe (a b : Script) : Prop := a.name ≠ b.name

instance : IsAntisymm Script (fun a b => scriptLE a b ∧ scriptNameNe a b) :=
  IsAntisymm.mk (fun a b h1 h2 =>
    absurd
      (String.ext (charListLe_antisymm a.name.data b.name.data h1.1 h2.1))
      h1.2)

lemma nodup_names_pairwise_ne {l : List Script}
    (hn : (l.map Script.name).Nodup) : l.Pairwise scriptNameNe := by
  have h := List.pairwise_map.mp hn
  exact h.imp (fun hab => hab)

lemma sortScripts_eq_of_perm {l₁ l₂ : List Script} (hp : l₁.Perm l₂)
    (hn : (l₁.map Script.name).Nodup) :
    sortScripts l₁ = sortScripts l₂ := by
  have hperm : (sortScripts l₁).Perm (sortScripts l₂) :=
    ((sortScripts_perm l₁).trans hp).trans (sortScripts_perm l₂).symm
  have hn₁ : ((sortScripts l₁).map Script.name).Nodup :=
    ((sortScripts_perm l₁).map Script.name).nodup_iff.mpr hn
  have hn₂ : ((sortScripts l₂).map Script.name).Nodup :=
    ((sortScripts_perm l₂).map Script.name).nodup_iff.mpr
      ((hp.map Script.name).nodup_iff.mp hn)
  have hs₁ : (sortScripts l₁).Pairwise
      (fun a b => scriptLE a b ∧ scriptNameNe a b) :=
    (sortScripts_sorted l₁).and (nodup_names_pairwise_ne hn₁)
  have hs₂ : (sortScripts l₂).Pairwise
      (fun a b => scriptLE a b ∧ scriptNameNe a b) :=
    (sortScripts_sorted l₂).and (nodup_names_pairwise_ne hn₂)
  exact List.eq_of_perm_of_sorted hperm hs₁ hs₂

/-- C4: matching scripts are printed in ascending sorted filename order
(the matches list is pairwise ordered under the Python string comparison),
and the whole output is invariant under any reordering of the enumeration
of the discovered scripts. -/
theorem C4_sorted_filename_order (kws : List String) (l₁ l₂ : List Script)
    (hp : l₁.Perm l₂) (hn : (l₁.map Script.name).Nodup) :
    run kws l₁ = run kws l₂
    ∧ (matchedNames kws l₁).Pairwise (fun a b => pyStrLe a b = true) := by
  constructor
  · unfold run runBody
    rw [sortScripts_eq_of_perm hp hn]
  · rw [matchedNames_eq]
    exact List.pairwise_map.mpr
      (((sortScripts_sorted l₁).filter (matchPred kws)).imp (fun h => h))

theorem C4_sorted_filename_order_witness :
    run ["py"] [Script.mk "b.py" "t", Script.mk "a.py" "u"]
        = run ["py"] [Script.mk "a.py" "u", Script.mk "b.py" "t"]
    ∧ (matchedNames ["py"] [Script.mk "b.py" "t", Script.mk "a.py" "u"]).Pairwise
        (fun a b => pyStrLe a b = true) :=
  C4_sorted_filename_order ["py"]
    [Script.mk "b.py" "t", Script.mk "a.py" "u"]
    [Script.mk "a.py" "u", Script.mk "b.py" "t"]
    (by decide) (by decide)

/-- C8: the scan is deterministic: runs with the same keyword list, the
same mode flag and the same file contents produce byte-identical standard
output, whatever order the filesystem enumerates the files in. -/
theorem C8_deterministic_scan (kws : List String) (searchParser : Bool)
    (fs₁ fs₂ : List SourceFile) (hp : fs₁.Perm fs₂)
    (hn : (fs₁.map SourceFile.name).Nodup) :
    scanRun kws searchParser fs₁ = scanRun kws searchParser fs₂ := by
  have hn' : ((fs₁.map (toScript searchParser)).map Script.name).Nodup := by
    rw [List.map_map]
    exact hn
  unfold scanRun run runBody
  rw [sortScripts_eq_of_perm (hp.map (toScript searchParser)) hn']

theorem C8_deterministic_scan_witness :
    scanRun ["tracto"] false
        [SourceFile.mk "b.py" (PyModule.mk (some "tractogram ops")) "h",
         SourceFile.mk "a.py" (PyModule.mk none) "tracto help"]
      = scanRun ["tracto"] false
        [SourceFile.mk "a.py" (PyModule.mk none) "tracto help",
         SourceFile.mk "b.py" (PyModule.mk (some "tractogram ops")) "h"] :=
  C8_deterministic_scan ["tracto"] false
    [SourceFile.mk "b.py" (PyModule.mk (some "tractogram ops")) "h",
     SourceFile.mk "a.py" (PyModule.mk none) "tracto help"]
    [SourceFile.mk "a.py" (PyModule.mk none) "tracto help",
     SourceFile.mk "b.py" (PyModule.mk (some "tractogram ops")) "h"]
    (by decide) (by decide)

lemma runEAux_err_iff {ε : Type} (kws : List String) :
    ∀ (l : List (String × Except ε String)) (ms : List String) (out : String),
      isErr (runEAux kws l ms out) = true ↔ ∃ p ∈ l, isErr p.2 = true := by
  intro l
  induction l with
  | nil => intro ms out; simp [runEAux, isErr]
  | cons hd rest ih =>
    intro ms out
    obtain ⟨nm, res⟩ := hd
    cases res with
    | error e =>
      constructor
      · intro _
        exact ⟨(nm, Except.error e), List.mem_cons_self _ _, rfl⟩
      · intro _
        rfl
    | ok text =>
      have hstep : runEAux kws ((nm, Except.ok text) :: rest) ms out
          = if matchPred kws (Script.mk nm text)
            then runEAux kws rest (ms ++ [nm])
                   (out ++ scriptReport kws (Script.mk nm text))
            else runEAux kws rest ms out := rfl
      rw [hstep]
      by_cases h : matchPred kws (Script.mk nm text)
      · rw [if_pos h, ih]
        simp [isErr]
      · rw [if_neg h, ih]
        simp [isErr]

/-- C7: extraction errors are unguarded: the run ends in an uncaught
exception exactly when the extraction of some processed file raises one,
so a single failing file aborts the entire run and no per-file error is
caught and skipped. -/
theorem C7_unguarded_extraction_errors {ε : Type} (kws : List String)
    (l : List (String × Except ε String)) :
    isErr (runE kws l) = true ↔ ∃ p ∈ l, isErr p.2 = true := by
  unfold runE
  cases hres : runEAux kws (List.insertionSort pairLE l) [] "" with
  | error e =>
    have h1 : isErr (runEAux kws (List.insertionSort pairLE l) [] "") = true := by
      rw [hres]; rfl
    rw [runEAux_err_iff] at h1
    constructor
    · intro _
      obtain ⟨p, hpmem, hp⟩ := h1
      exact ⟨p, (List.perm_insertionSort pairLE l).mem_iff.mp hpmem, hp⟩
    · intro _
      rfl
  | ok r =>
    obtain ⟨ms, out⟩ := r
    have h1 : ¬ ∃ p ∈ List.insertionSort pairLE l, isErr p.2 = true := by
      rw [← runEAux_err_iff kws _ [] "", hres]
      simp [isErr]
    constructor
    · intro h2
      simp [isErr] at h2
    · intro h2
      exfalso
      apply h1
      obtain ⟨p, hpmem, hp⟩ := h2
      exact ⟨p, (List.perm_insertionSort pairLE l).mem_iff.mpr hpmem, hp⟩

lemma hlFuel_succ_cons_nil (f : Nat) (c : Char) (rest : List Char) :
    hlFuel [] (f + 1) (c :: rest)
      = openMarker ++ closeMarker ++ c :: hlFuel [] f rest := rfl

lemma hlFuel_succ_cons (k : Char) (kt : List Char) (f : Nat) (c : Char)
    (rest : List Char) :
    hlFuel (k :: kt) (f + 1) (c :: rest)
      = if ciHead (k :: kt) (c :: rest) then
          openMarker ++ (c :: rest).take (kt.length + 1) ++ closeMarker
            ++ hlFuel (k :: kt) f ((c :: rest).drop (kt.length + 1))
        else c :: hlFuel (k :: kt) f rest := rfl

lemma hlFuel_irrel (kw : List Char) :
    ∀ (f₁ : Nat) (s : List Char) (f₂ : Nat), s.length ≤ f₁ → s.length ≤ f₂ →
      hlFuel kw f₁ s = hlFuel kw f₂ s := by
  intro f₁
  induction f₁ with
  | zero =>
    intro s f₂ h1 _
    have hs : s = [] := List.length_eq_zero.mp (Nat.le_zero.mp h1)
    subst hs
    cases f₂ <;> rfl
  | succ f ihf =>
    intro s f₂ h1 h2
    cases s with
    | nil => cases f₂ <;> rfl
    | cons c rest =>
      cases f₂ with
      | zero => simp at h2
      | succ f₂' =>
        cases kw with
        | nil =>
          rw [hlFuel_succ_cons_nil, hlFuel_succ_cons_nil,
            ihf rest f₂' (by simpa using h1) (by simpa using h2)]
        | cons k kt =>
          rw [hlFuel_succ_cons, hlFuel_succ_cons]
          by_cases hc : ciHead (k :: kt) (c :: rest)
          · rw [if_pos hc, if_pos hc,
              ihf ((c :: rest).drop (kt.length + 1)) f₂'
                (by simp only [List.length_drop, List.length_cons] at h1 ⊢; omega)
                (by simp only [List.length_drop, List.length_cons] at h2 ⊢; omega)]
          · rw [if_neg hc, if_neg hc,
              ihf rest f₂' (by simpa using h1) (by simpa using h2)]

lemma hlSubCore_cons (k : Char) (kt : List Char) (c : Char) (rest : List Char) :
    hlSubCore (k :: kt) (c :: rest)
      = if ciHead (k :: kt) (c :: rest) then
          openMarker ++ (c :: rest).take (kt.length + 1) ++ closeMarker
            ++ hlSubCore (k :: kt) ((c :: rest).drop (kt.length + 1))
        else c :: hlSubCore (k :: kt) rest := by
  unfold hlSubCore
  rw [show (c :: rest).length = rest.length + 1 from rfl, hlFuel_succ_cons]
  by_cases hc : ciHead (k :: kt) (c :: rest)
  · rw [if_pos hc, if_pos hc,
      hlFuel_irrel (k :: kt) rest.length ((c :: rest).drop (kt.length + 1))
        ((c :: rest).drop (kt.length + 1)).length
        (by simp only [List.length_drop, List.length_cons]; omega)
        (Nat.le_refl _)]
  · rw [if_neg hc, if_neg hc]

/-- Absence of any case-insensitive occurrence of kw anywhere in s,
checked at every suffix start position. -/
def occFree (kw s : List Char) : Bool :=
  (List.range (s.length + 1)).all (fun i => !ciHead kw (s.drop i))

lemma occFree_cons {kw : List Char} {c : Char} {rest : List Char} :
    occFree kw (c :: rest) = (!ciHead kw (c :: rest) && occFree kw rest) := by
  unfold occFree
  rw [show (c :: rest).length = rest.length + 1 from rfl,
    List.range_succ_eq_map, List.all_cons, List.all_map]
  rfl

lemma occFree_nil_kw (s : List Char) : occFree [] s = false := by
  unfold occFree
  rw [List.range_succ_eq_map, List.all_cons]
  have h : ciHead [] (s.drop 0) = true := rfl
  rw [h]
  rfl

lemma hlSubCore_id_of_occFree :
    ∀ (kw s : List Char), occFree kw s = true → hlSubCore kw s = s := by
  intro kw s
  induction s with
  | nil =>
    intro h
    cases kw with
    | nil => rw [occFree_nil_kw] at h; simp at h
    | cons k kt => rfl
  | cons c rest ih =>
    intro h
    rw [occFree_cons, Bool.and_eq_true] at h
    obtain ⟨h1, h2⟩ := h
    cases kw with
    | nil =>
      have hch : ciHead [] (c :: rest) = true := rfl
      rw [hch] at h1
      simp at h1
    | cons k kt =>
      have hne : ¬ ciHead (k :: kt) (c :: rest) = true := by
        simp only [Bool.not_eq_true'] at h1
        simp [h1]
      rw [hlSubCore_cons, if_neg hne, ih h2]

lemma hlOne_id_of_occFree (kw s : String)
    (h : occFree kw.data s.data = true) : hlOne kw s = s := by
  unfold hlOne
  rw [hlSubCore_id_of_occFree kw.data s.data h]

lemma highlight_id_of_occFree (kws : List String) (s : String)
    (h : ∀ kw ∈ kws, occFree kw.data s.data = true) : highlight kws s = s := by
  unfold highlight
  induction kws with
  | nil => rfl
  | cons kw rest ih =>
    rw [List.foldl_cons, hlOne_id_of_occFree kw s (h kw (List.mem_cons_self kw rest))]
    exact ih (fun k hk => h k (List.mem_cons_of_mem _ hk))

/-- C6 counterexample: the script scil_available.py with an empty
docstring is reported for the keyword available through its filename, but
the printed text body is not the bare placeholder line: the keyword
occurrence inside the placeholder is wrapped with the ANSI markers. -/
theorem C6_counterexample :
    matchedNames ["available"] [Script.mk "scil_available.py" ""]
        = ["scil_available.py"]
    ∧ printedBody ["available"] (Script.mk "scil_available.py" "")
        = "No docstring " ++ RED ++ BOLD ++ "available" ++ END_COLOR ++ "!"
    ∧ printedBody ["available"] (Script.mk "scil_available.py" "") ≠ NO_DOC := by
  decide

/-- C6 amended: for a matching script whose extracted text is empty, the
printed body is the fixed placeholder string with the keyword
substitutions applied to it; it equals the bare placeholder exactly when
no keyword occurs case-insensitively inside the placeholder text. -/
theorem C6_amended_placeholder (kws : List String) (scr : Script)
    (h : scr.text = "") :
    printedBody kws scr = highlight kws NO_DOC
    ∧ ((∀ kw ∈ kws, occFree kw.data NO_DOC.data = true) →
        printedBody kws scr = NO_DOC) := by
  constructor
  · unfold printedBody
    rw [if_pos h]
  · intro hocc
    unfold printedBody
    rw [if_pos h]
    exact highlight_id_of_occFree kws NO_DOC hocc

theorem C6_amended_placeholder_witness :
    printedBody ["zzz"] (Script.mk "scil_zzz.py" "") = NO_DOC :=
  (C6_amended_placeholder ["zzz"] (Script.mk "scil_zzz.py" "") rfl).2 (by decide)

/-- Number of positions of s at which a case-insensitive occurrence of kw
starts, overlapping occurrences included. -/
def ciOccCount (kw s : String) : Nat :=
  (List.range (s.data.length + 1)).countP
    (fun i => ciHead kw.data (s.data.drop i))

/-- Number of positions of s at which the exact pattern pat starts. -/
def exactOccCount (pat s : String) : Nat :=
  (List.range (s.data.length + 1)).countP
    (fun i => decide ((s.data.drop i).take pat.data.length = pat.data))

/-- C2 counterexample: for the run with keyword aa on the single script
scil_aa.py with docstring aaa, the script is reported, the original text
aaa contains two case-insensitive occurrences of the keyword, yet the
printed body carries exactly one opening marker: the computed body wraps
only the leftmost occurrence, and the occurrence starting at index 1 is
printed with its second character outside any marker pair, so not every
occurrence is wrapped. -/
theorem C2_counterexample :
    matchedNames ["aa"] [Script.mk "scil_aa.py" "aaa"] = ["scil_aa.py"]
    ∧ ciOccCount "aa" "aaa" = 2
    ∧ exactOccCount (RED ++ BOLD) (hlOne "aa" "aaa") = 1
    ∧ hlOne "aa" "aaa" = RED ++ BOLD ++ "aa" ++ END_COLOR ++ "a" := by
  decide

/-- Leftmost non-overlapping highlighting of one keyword, stated as a
relation between original and printed character lists: a position where no
case-insensitive occurrence of the keyword starts is copied unchanged, and
where an occurrence starts, that occurrence is wrapped between the marker
pair with its original casing and the scan resumes right after it. -/
inductive HLSpec (kw : List Char) : List Char → List Char → Prop where
  | nil : HLSpec kw [] []
  | plain (c : Char) (s out : List Char) :
      ciHead kw (c :: s) = false → HLSpec kw s out →
      HLSpec kw (c :: s) (c :: out)
  | wrap (c : Char) (s out : List Char) :
      ciHead kw (c :: s) = true → HLSpec kw ((c :: s).drop kw.length) out →
      HLSpec kw (c :: s)
        (openMarker ++ (c :: s).take kw.length ++ closeMarker ++ out)

lemma hlSubCore_HLSpec (k : Char) (kt : List Char) :
    ∀ (n : Nat) (s : List Char), s.length ≤ n →
      HLSpec (k :: kt) s (hlSubCore (k :: kt) s) := by
  intro n
  induction n with
  | zero =>
    intro s hs
    have hnil : s = [] := List.length_eq_zero.mp (Nat.le_zero.mp hs)
    subst hnil
    exact HLSpec.nil
  | succ n ihn =>
    intro s hs
    cases s with
    | nil => exact HLSpec.nil
    | cons c rest =>
      rw [hlSubCore_cons]
      by_cases hc : ciHead (k :: kt) (c :: rest)
      · rw [if_pos hc]
        exact HLSpec.wrap c rest _ hc
          (ihn ((c :: rest).drop (kt.length + 1))
            (by simp only [List.length_drop, List.length_cons] at hs ⊢; omega))
      · rw [if_neg hc]
        exact HLSpec.plain c rest _ (Bool.eq_false_iff.mpr hc)
          (ihn rest (by simp only [List.length_cons] at hs; omega))

/-- C2 amended: for every nonempty keyword, the printed text relates to
the original by the leftmost non-overlapping scan: every occurrence found
by the left-to-right scan is wrapped with the bold-red marker and the
reset marker with its original casing preserved, characters at positions
where no occurrence starts are copied unaltered, and occurrences that
overlap an occurrence already wrapped further left are not wrapped
separately; substitutions for later keywords treat the already marked
text as input. -/
theorem C2_amended_leftmost_nonoverlap (kw s : String) (h : kw ≠ "") :
    HLSpec kw.data s.data (hlOne kw s).data := by
  have hkd : kw.data ≠ [] := fun hd => h (String.ext hd)
  obtain ⟨k, kt, hk⟩ := List.exists_cons_of_ne_nil hkd
  show HLSpec kw.data s.data (hlSubCore kw.data s.data)
  rw [hk]
  exact hlSubCore_HLSpec k kt s.data.length s.data (Nat.le_refl _)

theorem C2_amended_leftmost_nonoverlap_witness :
    HLSpec "ab".data "xAby".data (hlOne "ab" "xAby").data :=
  C2_amended_leftmost_nonoverlap "ab" "xAby" (by decide)

lemma expandtabsAux_id : ∀ (l : List Char) (col : Nat),
    l.any (fun c => c = '\t') = false → expandtabsAux l col = l := by
  intro l
  induction l with
  | nil => intro col _; rfl
  | cons c rest ih =>
    intro col h
    simp only [List.any_cons, Bool.or_eq_false_iff,
      decide_eq_false_iff_not] at h
    obtain ⟨h1, h2⟩ := h
    unfold expandtabsAux
    rw [if_neg h1]
    by_cases hnl : (c = '\n' || c = '\r') = true
    · rw [if_pos hnl, ih 0 (by simpa using h2)]
    · rw [if_neg hnl, ih (col + 1) (by simpa using h2)]

lemma splitNl_ne_nil : ∀ l : List Char, splitNl l ≠ [] := by
  intro l
  cases l with
  | nil => simp [splitNl]
  | cons c rest =>
    unfold splitNl
    by_cases h : c = '\n'
    · rw [if_pos h]; simp
    · rw [if_neg h]
      cases hs : splitNl rest <;> simp

lemma joinNl_splitNl : ∀ l : List Char, joinNl (splitNl l) = l := by
  intro l
  induction l with
  | nil => rfl
  | cons c rest ih =>
    unfold splitNl
    by_cases h : c = '\n'
    · rw [if_pos h]
      subst h
      cases hs : splitNl rest with
      | nil => exact absurd hs (splitNl_ne_nil rest)
      | cons l0 ls =>
        rw [hs] at ih
        show '\n' :: joinNl (l0 :: ls) = '\n' :: rest
        rw [ih]
    · rw [if_neg h]
      cases hs : splitNl rest with
      | nil => exact absurd hs (splitNl_ne_nil rest)
      | cons l0 ls =>
        rw [hs] at ih
        cases ls with
        | nil =>
          show c :: l0 = c :: rest
          rw [show joinNl [l0] = l0 from rfl] at ih
          rw [ih]
        | cons l1 ls2 =>
          show (c :: l0) ++ '\n' :: joinNl (l1 :: ls2) = c :: rest
          rw [List.cons_append]
          rw [show l0 ++ '\n' :: joinNl (l1 :: ls2)
              = joinNl (l0 :: l1 :: ls2) from rfl]
          rw [ih]

lemma dropTrailingEmpties_of_last {l : List (List Char)} {last : List Char}
    (hl : l.getLast? = some last) (hne : last ≠ []) :
    dropTrailingEmpties l = l := by
  unfold dropTrailingEmpties
  have hrev : l.reverse.head? = some last := by
    rw [List.head?_reverse]; exact hl
  cases hr : l.reverse with
  | nil => rw [hr] at hrev; simp at hrev
  | cons x xs =>
    rw [hr] at hrev
    have hx : x = last := by simpa using hrev
    subst hx
    rw [List.dropWhile_cons,
      if_neg (by simpa [List.isEmpty_iff] using hne), ← hr,
      List.reverse_reverse]

lemma cleandoc_id_of_alreadyClean (d : String) (h : alreadyClean d = true) :
    cleandoc d = d := by
  unfold alreadyClean at h
  rw [Bool.and_eq_true] at h
  obtain ⟨htab, hrest⟩ := h
  apply String.ext
  show cleandocCore d.data = d.data
  unfold cleandocCore
  have hexp : expandtabsAux d.data 0 = d.data :=
    expandtabsAux_id d.data 0 (by simpa using htab)
  rw [hexp]
  cases hsplit : splitNl d.data with
  | nil => exact absurd hsplit (splitNl_ne_nil _)
  | cons f rest =>
    rw [hsplit] at hrest
    rw [Bool.and_eq_true, Bool.and_eq_true] at hrest
    obtain ⟨⟨hf, hlast⟩, hmargin⟩ := hrest
    cases f with
    | nil => exact absurd hf Bool.false_ne_true
    | cons c0 ftail =>
      have hnospace : isPySpace c0 = false := by
        simpa [Bool.not_eq_true'] using hf
      have hstrip : lstrip (c0 :: ftail) = c0 :: ftail := by
        unfold lstrip
        rw [List.dropWhile_cons, if_neg (by simp [hnospace])]
      have hded :
          (match marginOf rest with
           | none => rest
           | some m => rest.map (fun line => line.drop m)) = rest := by
        cases hm : marginOf rest with
        | none => rfl
        | some m =>
          rw [hm] at hmargin
          have hm0 : m = 0 := by simpa using hmargin
          subst hm0
          simp
      show joinNl
          (List.dropWhile List.isEmpty
            (dropTrailingEmpties
              (lstrip (c0 :: ftail) ::
                match marginOf rest with
                | none => rest
                | some m => rest.map (fun line => line.drop m)))) = d.data
      rw [hstrip, hded]
      cases hgl : ((c0 :: ftail) :: rest).getLast? with
      | none => rw [hgl] at hlast; exact absurd hlast Bool.false_ne_true
      | some last =>
        rw [hgl] at hlast
        have hlastne : last ≠ [] := by
          simpa [List.isEmpty_iff, Bool.not_eq_true'] using hlast
        rw [dropTrailingEmpties_of_last hgl hlastne]
        rw [List.dropWhile_cons, if_neg (by simp)]
        rw [← hsplit, joinNl_splitNl]

/-- C3 counterexample: fast-mode extraction is not verbatim: the module
docstring consisting of an indented word and a trailing newline comes
back with the indentation and the trailing blank line removed, because
ast.get_docstring passes every docstring through inspect.cleandoc. -/
theorem C3_counterexample :
    get_docstring (PyModule.mk (some "  hi\n")) = "hi"
    ∧ ("hi" : String) ≠ "  hi\n" := by decide

/-- C3 amended: in fast mode the extraction parses the file and returns
the module docstring normalised by inspect.cleandoc when one is present
(verbatim whenever the docstring contains no tab, starts with a nonempty
unindented line, ends with a nonempty line and has no common indentation
after the first line), and the empty string when none is present. -/
theorem C3_amended_cleandoc_normalised (d : String)
    (h : alreadyClean d = true) :
    get_docstring (PyModule.mk (some d)) = d
    ∧ (∀ e : String, get_docstring (PyModule.mk (some e)) = cleandoc e)
    ∧ get_docstring (PyModule.mk none) = "" := by
  refine ⟨?_, fun e => rfl, rfl⟩
  show cleandoc d = d
  exact cleandoc_id_of_alreadyClean d h

theorem C3_amended_cleandoc_normalised_witness :
    get_docstring (PyModule.mk (some "Apply NLMeans denoising."))
        = "Apply NLMeans denoising."
    ∧ (∀ e : String, get_docstring (PyModule.mk (some e)) = cleandoc e)
    ∧ get_docstring (PyModule.mk none) = "" :=
  C3_amended_cleandoc_normalised "Apply NLMeans denoising." (by decide)

set_option maxRecDepth 4000 in
example :
    run ["denoise"]
      [Script.mk "scil_b_denoise.py" "",
       Script.mk "scil_a.py" "Apply NLMeans Denoising."]
    = "================== scil_b_" ++ RED ++ BOLD ++ "denoise" ++ END_COLOR
        ++ ".py ==================\n"
      ++ "No docstring available!\n"
      ++ "================== End of scil_b_" ++ RED ++ BOLD ++ "denoise"
        ++ END_COLOR ++ ".py ==================\n" := by decide

example : run ["zzz"] [Script.mk "scil_a.py" "doc"] = "No results found!\n" := by
  decide

example : ciSubstring "DTI" "the dti metrics" = true := by decide
example : test_matching_keywords ["denoise"] ["scil_denoise_image.py", "Apply NLMeans denoising."] = true := by decide
example : test_matching_keywords ["denoise", "tractogram"] ["scil_denoise_image.py", "Apply NLMeans denoising."] = false := by decide
example : hlOne "aa" "aaa" = RED ++ BOLD ++ "aa" ++ END_COLOR ++ "a" := by decide
example : cleandoc "  hi\n" = "hi" := by decide
example : cleandoc "\nFoo\n   Bar\n" = "Foo\n   Bar" := by decide
example : cleandoc "A\n\tB" = "A\nB" := by decide
example : cleandoc "  A\n  B\n   C" = "A\nB\n C" := by decide
example : hlOne "" "ab" =
    RED ++ BOLD ++ END_COLOR ++ "a" ++ RED ++ BOLD ++ END_COLOR ++ "b"
      ++ RED ++ BOLD ++ END_COLOR := by decide
example : get_docstring (PyModule.mk (some "  doc\n  more")) = "doc\nmore" := by decide
example : get_docstring (PyModule.mk none) = "" := by decide
